import Mathlib

/-!
Verification of the authorization core of `better-auth-plugins`
(`packages/plugins/authorization/src`): the permission priority sorter,
the secure template interpolator and context sanitizer, the
check-permission field semantics, the idempotent junction assignment,
the cascading permission deletion, the grouped-record flattener and the
array chunker.  Each TypeScript function is embedded as an executable
Lean definition; machine integers and timestamps are modelled as `Int`,
JSON-ish values as the closed variant `Value`, fallible operations as
`Except`, and the external database adapter as explicit state passing
over in-memory tables.
-/

/-! ### Character and string utilities

JavaScript string primitives (`includes`, `trim`, `toLowerCase`,
`localeCompare`) are modelled on `List Char` so that every definition
reduces inside the kernel. -/

/-- Left and right curly brace characters, used by the template scanner. -/
def lbrace : Char := '\x7b'

/-- Right curly brace character. -/
def rbrace : Char := '\x7d'

/-- Does `needle` occur at the start of `hay`? -/
def matchAt : List Char → List Char → Bool
  | [], _ => true
  | _ :: _, [] => false
  | a :: as, b :: bs => a = b && matchAt as bs

/-- Does `needle` occur anywhere in `hay`?  Models `String.includes`. -/
def hasSub (needle : List Char) : List Char → Bool
  | [] => needle.isEmpty
  | c :: rest => matchAt needle (c :: rest) || hasSub needle rest

/-- Model of the JavaScript `hay.includes(pat)`. -/
def strIncludes (hay pat : String) : Bool :=
  hasSub pat.data hay.data

/-- Whitespace characters stripped by the JavaScript `trim`. -/
def jsWhitespace : List Char := [' ', '\t', '\n', '\r']

/-- Strip leading and trailing whitespace from a character list. -/
def trimChars (l : List Char) : List Char :=
  ((l.dropWhile (· ∈ jsWhitespace)).reverse.dropWhile (· ∈ jsWhitespace)).reverse

/-- Model of the JavaScript `String.trim`. -/
def jsTrim (s : String) : String := String.mk (trimChars s.data)

/-- ASCII lower-casing of a character. -/
def charToLower (c : Char) : Char :=
  if 65 ≤ c.toNat ∧ c.toNat ≤ 90 then Char.ofNat (c.toNat + 32) else c

/-- Model of the JavaScript `String.toLowerCase` (ASCII fragment). -/
def strToLower (s : String) : String := String.mk (s.data.map charToLower)

/-- Strict lexicographic comparison of character lists by code point. -/
def charListLt : List Char → List Char → Bool
  | [], [] => false
  | [], _ :: _ => true
  | _ :: _, [] => false
  | a :: as, b :: bs =>
    if a.toNat < b.toNat then true
    else if b.toNat < a.toNat then false
    else charListLt as bs

/-- Model of `a.localeCompare(b)`: a three-way comparison returning a
negative, zero, or positive number.  We model the collation as plain
lexicographic comparison of code points. -/
def strCompare (a b : String) : Int :=
  if charListLt a.data b.data then -1
  else if charListLt b.data a.data then 1
  else 0

/-! ### The JSON-like value tree

`Value` is the closed variant used for permission `conditions` objects
and evaluation contexts: `null`, booleans, numbers, strings, arrays and
plain objects (association lists, preserving key insertion order). -/

/-- A JSON-like value: the shape of condition trees and evaluation
contexts handled by the interpolation and sanitization code. -/
inductive Value where
  | vnull
  | vbool (b : Bool)
  | vnum (n : Int)
  | vstr (s : String)
  | varr (items : List Value)
  | vobj (entries : List (String × Value))

/-- The provenance tag of an aggregated permission
(`permissionSource` in `validation`). -/
inductive PermissionSource where
  | memberPermissionSet
  | memberDirect
  | userPermissionSet
  | userDirect
deriving DecidableEq

/-- The canonical in-memory permission rule (`CaslPermission` in
`types.ts` / `caslPermissionSchema`): timestamps are epoch
milliseconds. -/
structure CaslPermission where
  id : String
  name : String
  action : String
  subject : String
  fields : Option (List String)
  conditions : Option (List (String × Value))
  inverted : Bool
  reason : Option String
  createdAt : Int
  updatedAt : Option Int
  expiresAt : Option Int
  organizationId : Option String
  source : PermissionSource

/-! ### The priority sorter (`sortPermissionsByPriority` in `utils.ts`) -/

/-- Source priority mapping of `sortPermissionsByPriority`: lower number
means applied earlier, i.e. lower priority. -/
def sourcePriority : PermissionSource → Int
  | .memberPermissionSet => 1
  | .memberDirect => 2
  | .userPermissionSet => 3
  | .userDirect => 4

/-- The `getSpecificity` helper of the comparator: `+2` when `conditions`
is a non-empty object, `+1` when `fields` is a non-empty array. -/
def getSpecificity (p : CaslPermission) : Int :=
  (match p.conditions with
   | some entries => if entries.length > 0 then 2 else 0
   | none => 0) +
  (match p.fields with
   | some fs => if fs.length > 0 then 1 else 0
   | none => 0)

/-- The `getTimestamp` helper of the comparator:
`updatedAt || createdAt` as epoch milliseconds. -/
def getTimestamp (p : CaslPermission) : Int :=
  match p.updatedAt with
  | some t => t
  | none => p.createdAt

/-- The comparator passed to `permissions.sort` in
`sortPermissionsByPriority`: source rank, then allow-before-deny, then
specificity, then timestamp, then id. -/
def cmpRule (a b : CaslPermission) : Int :=
  if sourcePriority a.source ≠ sourcePriority b.source then
    sourcePriority a.source - sourcePriority b.source
  else if a.inverted ≠ b.inverted then
    (if a.inverted then 1 else -1)
  else if getSpecificity a ≠ getSpecificity b then
    getSpecificity a - getSpecificity b
  else if getTimestamp a ≠ getTimestamp b then
    getTimestamp a - getTimestamp b
  else strCompare a.id b.id

/-- The non-strict order induced by the comparator: `a` may be placed
before `b` exactly when the comparator does not report `a` after `b`. -/
def ruleLe (a b : CaslPermission) : Prop := cmpRule a b ≤ 0

instance : DecidableRel ruleLe := fun a b => Int.decLe (cmpRule a b) 0

/-- Model of `sortPermissionsByPriority`: `Array.prototype.sort` with a
consistent comparator is a stable sort (ES2019), and insertion sort is
stable, so the two compute the same list. -/
def sortPermissionsByPriority (permissions : List CaslPermission) : List CaslPermission :=
  List.insertionSort ruleLe permissions

/-! ### The ordering cascade as the specification words it -/

/-- Generic lexicographic step: strictly smaller key, or equal key and
smaller remainder. -/
def lexLe {α : Type} (f : α → Int) (rest : α → α → Prop) (a b : α) : Prop :=
  f a < f b ∨ (f a = f b ∧ rest a b)

/-- Rank of the allow/deny flag: allow (`inverted = false`) before
deny (`inverted = true`). -/
def invRank (b : Bool) : Int := if b then 1 else 0

/-- The lexicographic cascade exactly as the specification describes it:
ascending source rank, then allow before deny, then ascending
specificity, then ascending timestamp (`updatedAt` if present else
`createdAt`), then ascending lexical comparison of `id`. -/
def cascadeSpecLe : CaslPermission → CaslPermission → Prop :=
  lexLe (fun p => sourcePriority p.source)
    (lexLe (fun p => invRank p.inverted)
      (lexLe getSpecificity
        (lexLe getTimestamp
          (fun a b => strCompare a.id b.id ≤ 0))))

/-! ### The template interpolator (`utils.ts` lines 170-318) -/

/-- The fixed dangerous-key blacklist `DANGEROUS_TEMPLATE_KEYS`. -/
def dangerousTemplateKeys : List String := ["__proto__", "constructor", "prototype"]

/-- The variable-name blacklist `DISALLOWED_TEMPLATE_VARIABLES`. -/
def disallowedTemplateVariables : List String := ["process.env"]

/-- One step of the global regex scan over a template: at each position
the pattern tries to match an opening double brace, a non-empty run of
characters other than a closing brace, and a closing double brace; on a
match the captured run is emitted and scanning resumes after the match,
otherwise scanning advances by one character.  `fuel` bounds the number
of scan steps; it is initialised with the length of the input, which is
enough because every step consumes at least one character. -/
def scanVarsAux : Nat → List Char → List String
  | 0, _ => []
  | _ + 1, [] => []
  | fuel + 1, c :: rest =>
    if c = lbrace then
      match rest with
      | [] => []
      | c2 :: rest2 =>
        if c2 = lbrace then
          match rest2.takeWhile (fun ch => ch ≠ rbrace), rest2.dropWhile (fun ch => ch ≠ rbrace) with
          | run@(_ :: _), a1 :: a2 :: rest3 =>
            if a1 = rbrace ∧ a2 = rbrace then String.mk run :: scanVarsAux fuel rest3
            else scanVarsAux fuel rest
          | _, _ => scanVarsAux fuel rest
        else scanVarsAux fuel rest
    else scanVarsAux fuel rest

/-- All raw template variables captured in `template`, in scan order. -/
def scanVars (template : String) : List String :=
  scanVarsAux template.data.length template.data

/-- The validation errors produced for a single (already trimmed)
template variable, in the order `validateTemplateVariables` pushes
them. -/
def perVarErrors (v : String) : List String :=
  (if v ∈ disallowedTemplateVariables then
    ["Unauthorized template variable: " ++ v] else []) ++
  (if strIncludes v ".." || strIncludes v "/" || strIncludes v "\\" then
    ["Invalid template variable format: " ++ v] else []) ++
  (if strIncludes v "(" || strIncludes v ")" || strIncludes v "[" || strIncludes v "]" then
    ["Template variable cannot contain function calls or array access: " ++ v] else [])

/-- Model of `validateTemplateVariables`: collect the per-variable
errors of every captured, trimmed template variable. -/
def validateTemplateVariables (template : String) : List String :=
  (scanVars template).flatMap (fun m => perVarErrors (jsTrim m))

/-! Model of `secureInterpolateObject` and its recursion through arrays
and objects.  The Mustache renderer is an external library; it is passed
in as an abstract `render` function where `none` stands for both a
thrown exception and a non-string render result, the two cases in which
the source falls back to the original string. -/
mutual
/-- String, array and object interpolation of `secureInterpolateObject`. -/
def secureInterpolateObject (render : String → List (String × Value) → Option String)
    (v : Value) (context : List (String × Value)) : Value :=
  match v with
  | .vnull => .vnull
  | .vbool b => .vbool b
  | .vnum n => .vnum n
  | .vstr s =>
    if strIncludes s "\x7b\x7b" = false then .vstr s
    else if (validateTemplateVariables s).length > 0 then .vstr s
    else
      match render s context with
      | some out => .vstr out
      | none => .vstr s
  | .varr items => .varr (interpolateValueList render items context)
  | .vobj entries => .vobj (interpolateObjectEntries render entries context)

/-- Element-wise interpolation of an array value. -/
def interpolateValueList (render : String → List (String × Value) → Option String)
    (items : List Value) (context : List (String × Value)) : List Value :=
  match items with
  | [] => []
  | x :: xs =>
    secureInterpolateObject render x context :: interpolateValueList render xs context

/-- Entry-wise interpolation of an object value: keys in the
dangerous-key blacklist are dropped from the output entirely. -/
def interpolateObjectEntries (render : String → List (String × Value) → Option String)
    (entries : List (String × Value)) (context : List (String × Value)) :
    List (String × Value) :=
  match entries with
  | [] => []
  | (k, val) :: xs =>
    if k ∈ dangerousTemplateKeys then interpolateObjectEntries render xs context
    else (k, secureInterpolateObject render val context) :: interpolateObjectEntries render xs context
end

/-- Model of `interpolateConditions`: a rule without conditions is
returned unchanged; otherwise only the `conditions` field is replaced by
its interpolation.  The surrounding try/catch of the source cannot fire
here because the embedded interpolation is total. -/
def interpolateConditions (render : String → List (String × Value) → Option String)
    (rule : CaslPermission) (context : List (String × Value)) : CaslPermission :=
  match rule.conditions with
  | none => rule
  | some entries =>
    { rule with conditions := some (interpolateObjectEntries render entries context) }

/-! ### The context sanitizer (`utils.ts` lines 325-399) -/

/-- Is this value one of the primitive context value types accepted by
the sanitizer (string, number, boolean, or null)? -/
def isPrimValue : Value → Bool
  | .vstr _ => true
  | .vnum _ => true
  | .vbool _ => true
  | .vnull => true
  | _ => false

/-- Model of the JavaScript property assignment `obj[k] = v` on a plain
object, as observed through its own enumerable properties: assigning
through the key `__proto__` invokes the inherited
`Object.prototype.__proto__` accessor and creates no own property, so
the object's entries are unchanged; every other key is created (or
overwritten) as an own data property — in particular `constructor` and
`prototype`, whose inherited counterparts are writable data properties
or absent. -/
def jsSetKey (obj : List (String × Value)) (k : String) (v : Value) : List (String × Value) :=
  if k = "__proto__" then obj
  else if (obj.map Prod.fst).contains k then
    obj.map (fun kv => if kv.1 = k then (k, v) else kv)
  else obj ++ [(k, v)]

/-- Model of `sanitizeNestedObject`: dangerous keys are skipped,
primitive values are kept, nested plain objects are rebuilt by the inner
loop of the source (which assigns exactly the entries whose key is in
the dangerous-key blacklist and whose value is primitive), and any other
value is dropped.  Every `obj[key] = value` of the source is modelled
with `jsSetKey`. -/
def sanitizeNestedObject (obj : List (String × Value)) : List (String × Value) :=
  obj.foldl (fun sanitized kv =>
    if kv.1 ∈ dangerousTemplateKeys then sanitized
    else if isPrimValue kv.2 then jsSetKey sanitized kv.1 kv.2
    else
      match kv.2 with
      | .vobj inner =>
        jsSetKey sanitized kv.1 (.vobj (inner.foldl (fun nested nkv =>
          if nkv.1 ∈ dangerousTemplateKeys then
            (if isPrimValue nkv.2 then jsSetKey nested nkv.1 nkv.2 else nested)
          else nested) []))
      | _ => sanitized) []

/-- The record returned by `validateAndSanitizeContext`. -/
structure SanitizedContextResult where
  isValid : Bool
  sanitizedContext : List (String × Value)
  errors : List String

/-- Model of `validateAndSanitizeContext`: dangerous top-level keys are
recorded as errors and dropped, plain-object values are sanitized with
`sanitizeNestedObject`, primitive values are kept, and any other value
is recorded as an error and dropped; the context is valid when no error
was recorded.  Every `sanitizedContext[key] = value` of the source is
modelled with `jsSetKey`. -/
def validateAndSanitizeContext (context : List (String × Value)) : SanitizedContextResult :=
  let st := context.foldl (fun (st : List String × List (String × Value)) kv =>
    if kv.1 ∈ dangerousTemplateKeys then
      (st.1 ++ ["Dangerous context key: " ++ kv.1], st.2)
    else
      match kv.2 with
      | .vobj inner => (st.1, jsSetKey st.2 kv.1 (.vobj (sanitizeNestedObject inner)))
      | .vstr s => (st.1, jsSetKey st.2 kv.1 (.vstr s))
      | .vnum n => (st.1, jsSetKey st.2 kv.1 (.vnum n))
      | .vbool b => (st.1, jsSetKey st.2 kv.1 (.vbool b))
      | .vnull => (st.1, jsSetKey st.2 kv.1 .vnull)
      | .varr _ =>
        (st.1 ++ ["Invalid context value type for key " ++ kv.1 ++ ": object"], st.2))
    ([], [])
  { isValid := st.1.isEmpty, sanitizedContext := st.2, errors := st.1 }

/-! ### Field-level permission check (`handlers/generic/check-permission.ts`) -/

/-- Model of the `allowed` computation of `checkPermissionHandler`:
`canField` abstracts `(field) => ability.can(action, subjectInstance, field)`
and `canBase` abstracts `ability.can(action, subjectInstance)`.  When a
non-empty field list is supplied, every field must be allowed
individually; otherwise the base check decides. -/
def checkPermissionFieldsAllowed (canField : String → Bool) (canBase : Bool)
    (fields : Option (List String)) : Bool :=
  match fields with
  | some fs => if fs.length > 0 then fs.all canField else canBase
  | none => canBase

/-! ### Duplicate-key classification and idempotent junction assignment
(`utils.ts` lines 28-88) -/

/-- A store-layer error as inspected by `isDuplicateKeyError`: an
`APIError` with a status and message, a raw error object carrying a
message, or anything else. -/
inductive DbError where
  | apiError (status : String) (message : String)
  | rawError (message : String)
  | unknownError
deriving DecidableEq

/-- Model of `isDuplicateKeyError`. -/
def isDuplicateKeyError : DbError → Bool
  | .apiError status message =>
    status == "CONFLICT" ||
    strIncludes message "duplicate" ||
    strIncludes message "unique" ||
    strIncludes message "UNIQUE constraint failed" ||
    strIncludes message "duplicate key value"
  | .rawError message =>
    strIncludes (strToLower message) "duplicate" ||
    strIncludes (strToLower message) "unique" ||
    strIncludes (strToLower message) "constraint" ||
    strIncludes (strToLower message) "already exists"
  | .unknownError => false

/-- A junction row: a pair of foreign keys, e.g. `(permissionSetId, userId)`. -/
abbrev JunctionRow := String × String

/-- The duplicate-key error raised by the modelled store on a uniqueness
violation. -/
def duplicateKeyDbError : DbError :=
  .rawError "duplicate key value violates unique constraint"

/-- Model of the external store adapter's `create` on a junction table
with a uniqueness constraint over the whole row (spec invariant: a
junction row is unique): inserting an existing row fails with a
duplicate-key error and leaves the table unchanged. -/
def junctionCreate (table : List JunctionRow) (row : JunctionRow) :
    List JunctionRow × Except DbError Unit :=
  if row ∈ table then (table, .error duplicateKeyDbError)
  else (table ++ [row], .ok ())

/-- The catch block of `handleIdempotentJunctionAssignment`: a
duplicate-key error is absorbed into success, any other error is
re-raised.  The transaction and non-transaction branches of the source
run this same logic. -/
def absorbDuplicateKey : Except DbError Unit → Except DbError Unit
  | .ok _ => .ok ()
  | .error e => if isDuplicateKeyError e then .ok () else .error e

/-- Model of `handleIdempotentJunctionAssignment` against the modelled
junction table: optimistic insert, then duplicate absorption. -/
def handleIdempotentJunctionAssignment (table : List JunctionRow) (row : JunctionRow) :
    List JunctionRow × Except DbError Unit :=
  let r := junctionCreate table row
  (r.1, absorbDuplicateKey r.2)

/-! ### Cascade deletion (`adapter/permission-adapter.ts`) -/

/-- The relational state touched by permission deletion: the three
junction tables that reference a permission (each row tagged with its
`permissionId` first) and the permission table itself, modelled by its
row ids. -/
structure AuthStore where
  userPermission : List JunctionRow
  memberPermission : List JunctionRow
  permissionPermissionSet : List JunctionRow
  permission : List String

/-- Model of `batchDeletePermissions`: for an empty id list return `0`
without touching the store; otherwise delete every junction row whose
`permissionId` is in `ids` from all three junction tables, then delete
the permission rows themselves, returning how many permission rows were
deleted.  The transaction and non-transaction branches of the source
perform the same four deletions in the same order. -/
def batchDeletePermissions (store : AuthStore) (ids : List String) : AuthStore × Nat :=
  if ids.length = 0 then (store, 0)
  else
    ({ userPermission := store.userPermission.filter (fun r => !(ids.contains r.1)),
       memberPermission := store.memberPermission.filter (fun r => !(ids.contains r.1)),
       permissionPermissionSet :=
         store.permissionPermissionSet.filter (fun r => !(ids.contains r.1)),
       permission := store.permission.filter (fun pid => !(ids.contains pid)) },
     (store.permission.filter (fun pid => ids.contains pid)).length)

/-- Model of `deletePermission`: delete all junction rows referencing
`id` from the three junction tables, then delete the permission row
itself (`adapter.delete` removes the first row matching the id filter);
the returned boolean reports whether a permission row was found. -/
def deletePermission (store : AuthStore) (id : String) : AuthStore × Bool :=
  ({ userPermission := store.userPermission.filter (fun r => !(r.1 == id)),
     memberPermission := store.memberPermission.filter (fun r => !(r.1 == id)),
     permissionPermissionSet :=
       store.permissionPermissionSet.filter (fun r => !(r.1 == id)),
     permission := store.permission.eraseP (fun pid => pid == id) },
   store.permission.contains id)

/-! ### Grouped-record flattening (`flattenGroupedRecords` in `utils.ts`) -/

/-- Model of `flattenGroupedRecords`: iterate over the grouped arrays in
record order, keeping the first record seen for each id.  The record map
is an association list (JavaScript object iteration order) and the
generic constraint `T extends (id : string)` becomes the projection
`getId`. -/
def flattenGroupedRecords {T : Type} (getId : T → String)
    (recordOfArrays : List (String × List T)) : List T :=
  (recordOfArrays.foldl (fun st kv =>
      kv.2.foldl (fun (st2 : List String × List T) item =>
        if getId item ∈ st2.1 then st2
        else (st2.1 ++ [getId item], st2.2 ++ [item])) st)
    (([] : List String), ([] : List T))).2

/-- Single-pass first-occurrence deduplication over a flat list, with an
explicit seen-id accumulator; the nested loops of
`flattenGroupedRecords` compute exactly this over the concatenation of
the grouped arrays. -/
def dedupByIdAux {T : Type} (getId : T → String) : List T → List String → List T
  | [], _ => []
  | x :: xs, seen =>
    if getId x ∈ seen then dedupByIdAux getId xs seen
    else x :: dedupByIdAux getId xs (seen ++ [getId x])

/-- The ids newly recorded by a pass of `dedupByIdAux`. -/
def newIds {T : Type} (getId : T → String) : List T → List String → List String
  | [], _ => []
  | x :: xs, seen =>
    if getId x ∈ seen then newIds getId xs seen
    else getId x :: newIds getId xs (seen ++ [getId x])

/-! ### Array chunking (`chunkArray` in `utils.ts`) -/

/-- Chunking with a fixed positive chunk size `m + 1`: the loop
`for (i = 0; i < array.length; i += chunkSize) chunks.push(array.slice(i, i + chunkSize))`. -/
def chunksOfPos {T : Type} (m : Nat) : List T → List (List T)
  | [] => []
  | x :: xs => ((x :: xs).take (m + 1)) :: chunksOfPos m ((x :: xs).drop (m + 1))
  termination_by l => l.length
  decreasing_by simp; omega

/-- Model of `chunkArray`: an empty array yields no chunks regardless of
the chunk size; a non-positive chunk size on a non-empty array raises;
otherwise the array is sliced into chunks of the given size. -/
def chunkArray {T : Type} (array : List T) (chunkSize : Int) : Except String (List (List T)) :=
  if array.length = 0 then .ok []
  else if chunkSize ≤ 0 then .error "Chunk size must be greater than 0"
  else .ok (chunksOfPos (chunkSize.toNat - 1) array)

/-! ### Concrete example inputs used by the witnesses and the
counterexample below -/

/-- Two rules that agree on every comparator key (including `id`) and
differ only in `name`: first rule. -/
def ruleDupA : CaslPermission :=
  { id := "p1", name := "alpha", action := "read", subject := "post",
    fields := none, conditions := none, inverted := false, reason := none,
    createdAt := 0, updatedAt := none, expiresAt := none,
    organizationId := none, source := .userDirect }

/-- Second rule of the comparator-tie pair: only the `name` differs. -/
def ruleDupB : CaslPermission :=
  { id := "p1", name := "beta", action := "read", subject := "post",
    fields := none, conditions := none, inverted := false, reason := none,
    createdAt := 0, updatedAt := none, expiresAt := none,
    organizationId := none, source := .userDirect }

/-- Witness rule with a distinct id and source: a member-set grant. -/
def ruleW1 : CaslPermission :=
  { id := "pa", name := "grant-a", action := "read", subject := "post",
    fields := none, conditions := none, inverted := false, reason := none,
    createdAt := 0, updatedAt := none, expiresAt := none,
    organizationId := none, source := .memberPermissionSet }

/-- Witness rule with a distinct id and source: a direct user grant. -/
def ruleW2 : CaslPermission :=
  { id := "pb", name := "grant-b", action := "read", subject := "post",
    fields := none, conditions := none, inverted := false, reason := none,
    createdAt := 0, updatedAt := none, expiresAt := none,
    organizationId := none, source := .userDirect }

/-- Witness rule with conditions, for the interpolation frame claim. -/
def ruleW3 : CaslPermission :=
  { id := "pc", name := "grant-c", action := "update", subject := "post",
    fields := some ["title"], conditions := none, inverted := true,
    reason := some "restricted", createdAt := 5, updatedAt := some 9,
    expiresAt := none, organizationId := some "org1", source := .memberDirect }

/-- A context whose second-level nested object carries the dangerous
key `constructor` next to a safe key.  Unlike `__proto__`, assigning
`constructor` creates an own property, so the source's inner loop
actually emits it. -/
def nestedDangerContext : List (String × Value) :=
  [("a", .vobj [("b", .vobj [("constructor", .vstr "x"), ("safe", .vstr "y")])])]

/-- An abstract renderer that would substitute if it were reached. -/
def injectingRender : String → List (String × Value) → Option String :=
  fun _ _ => some "INJECTED"

/-- A template string whose single variable is the blacklisted
`process.env`. -/
def processEnvTemplate : String := "\x7b\x7bprocess.env\x7d\x7d"

/-- A small store for the cascade-deletion witness: permission `p1` is
referenced from all three junction tables. -/
def witnessStore : AuthStore :=
  { userPermission := [("p1", "u1"), ("p2", "u2")],
    memberPermission := [("p1", "m1")],
    permissionPermissionSet := [("p1", "s1"), ("p2", "s1")],
    permission := ["p1", "p2"] }

/-- A grouped record map for the flattener witness: the permission with
id `x` is linked into both sets. -/
def witnessGroups : List (String × List (String × String)) :=
  [("setA", [("x", "one"), ("y", "two")]), ("setB", [("x", "three"), ("z", "four")])]

/-! ### Lemmas about the comparison primitives -/

theorem charListLt_irrefl : ∀ l : List Char, charListLt l l = false := by
  intro l
  induction l with
  | nil => rfl
  | cons a as ih => simp [charListLt, ih]

theorem charListLt_asymm : ∀ {l₁ l₂ : List Char},
    charListLt l₁ l₂ = true → charListLt l₂ l₁ = false := by
  intro l₁
  induction l₁ with
  | nil =>
    intro l₂ h
    cases l₂ with
    | nil => simp [charListLt]
    | cons b bs => simp [charListLt]
  | cons a as ih =>
    intro l₂ h
    cases l₂ with
    | nil => simp [charListLt] at h
    | cons b bs =>
      simp only [charListLt] at h ⊢
      by_cases h1 : a.toNat < b.toNat
      · have h2 : ¬ b.toNat < a.toNat := by omega
        simp [h1, h2]
      · by_cases h2 : b.toNat < a.toNat
        · simp [h1, h2] at h
        · simp only [h1, h2, if_false] at h ⊢
          exact ih h

theorem charListLt_trans : ∀ {l₁ l₂ l₃ : List Char},
    charListLt l₁ l₂ = true → charListLt l₂ l₃ = true → charListLt l₁ l₃ = true := by
  intro l₁
  induction l₁ with
  | nil =>
    intro l₂ l₃ h12 h23
    cases l₃ with
    | nil =>
      cases l₂ with
      | nil => simp [charListLt] at h23
      | cons b bs => simp [charListLt] at h23
    | cons c cs => simp [charListLt]
  | cons a as ih =>
    intro l₂ l₃ h12 h23
    cases l₂ with
    | nil => simp [charListLt] at h12
    | cons b bs =>
      cases l₃ with
      | nil => simp [charListLt] at h23
      | cons c cs =>
        simp only [charListLt] at h12 h23 ⊢
        by_cases hab : a.toNat < b.toNat
        · by_cases hbc : b.toNat < c.toNat
          · have : a.toNat < c.toNat := by omega
            simp [this]
          · by_cases hcb : c.toNat < b.toNat
            · simp [hbc, hcb] at h23
            · have : a.toNat < c.toNat := by omega
              simp [this]
        · by_cases hba : b.toNat < a.toNat
          · simp [hab, hba] at h12
          · by_cases hbc : b.toNat < c.toNat
            · have : a.toNat < c.toNat := by omega
              simp [this]
            · by_cases hcb : c.toNat < b.toNat
              · simp [hbc, hcb] at h23
              · have hac : ¬ a.toNat < c.toNat := by omega
                have hca : ¬ c.toNat < a.toNat := by omega
                simp only [hab, hba, if_false] at h12
                simp only [hbc, hcb, if_false] at h23
                simp only [hac, hca, if_false]
                exact ih h12 h23

theorem charListLt_conn : ∀ {l₁ l₂ : List Char},
    charListLt l₁ l₂ = false → charListLt l₂ l₁ = false → l₁ = l₂ := by
  intro l₁
  induction l₁ with
  | nil =>
    intro l₂ h12 _
    cases l₂ with
    | nil => rfl
    | cons b bs => simp [charListLt] at h12
  | cons a as ih =>
    intro l₂ h12 h21
    cases l₂ with
    | nil => simp [charListLt] at h21
    | cons b bs =>
      simp only [charListLt] at h12 h21
      by_cases hab : a.toNat < b.toNat
      · simp [hab] at h12
      · by_cases hba : b.toNat < a.toNat
        · simp [hba] at h21
        · have hn : a.toNat = b.toNat := by omega
          have hch : a = b := by
            apply Char.eq_of_val_eq
            apply UInt32.eq_of_val_eq
            exact Fin.ext hn
          simp only [hab, hba, if_false] at h12 h21
          rw [hch, ih h12 h21]

theorem strCompare_neg (a b : String) : strCompare b a = - strCompare a b := by
  unfold strCompare
  by_cases h1 : charListLt a.data b.data = true
  · simp [h1, charListLt_asymm h1]
  · by_cases h2 : charListLt b.data a.data = true
    · simp [h1, h2]
    · simp [h1, h2]

theorem strCompare_le_zero_iff (a b : String) :
    strCompare a b ≤ 0 ↔ (charListLt a.data b.data = true ∨ a = b) := by
  unfold strCompare
  by_cases h1 : charListLt a.data b.data = true
  · simp [h1]
  · by_cases h2 : charListLt b.data a.data = true
    · have hne : a ≠ b := by
        intro he
        rw [he] at h2
        rw [charListLt_irrefl] at h2
        exact Bool.false_ne_true h2
      simp [h1, h2, hne]
    · have heq : a = b := by
        apply String.ext
        exact charListLt_conn (by simpa using h1) (by simpa using h2)
      simp [h1, h2, heq, charListLt_irrefl]

theorem strCompare_le_trans {a b c : String}
    (h1 : strCompare a b ≤ 0) (h2 : strCompare b c ≤ 0) : strCompare a c ≤ 0 := by
  rw [strCompare_le_zero_iff] at h1 h2 ⊢
  rcases h1 with h1 | h1
  · rcases h2 with h2 | h2
    · exact Or.inl (charListLt_trans h1 h2)
    · subst h2
      exact Or.inl h1
  · subst h1
    exact h2

/-! ### Lemmas about the lexicographic cascade -/

theorem lexLe_total {α : Type} (f : α → Int) (rest : α → α → Prop)
    (h : ∀ a b, rest a b ∨ rest b a) (a b : α) :
    lexLe f rest a b ∨ lexLe f rest b a := by
  unfold lexLe
  rcases lt_trichotomy (f a) (f b) with hl | he | hg
  · exact Or.inl (Or.inl hl)
  · rcases h a b with hr | hr
    · exact Or.inl (Or.inr ⟨he, hr⟩)
    · exact Or.inr (Or.inr ⟨he.symm, hr⟩)
  · exact Or.inr (Or.inl hg)

theorem lexLe_trans {α : Type} (f : α → Int) (rest : α → α → Prop)
    (h : ∀ a b c, rest a b → rest b c → rest a c) (a b c : α) :
    lexLe f rest a b → lexLe f rest b c → lexLe f rest a c := by
  unfold lexLe
  intro hab hbc
  rcases hab with h1 | ⟨e1, r1⟩ <;> rcases hbc with h2 | ⟨e2, r2⟩
  · exact Or.inl (by omega)
  · exact Or.inl (by omega)
  · exact Or.inl (by omega)
  · exact Or.inr ⟨by omega, h a b c r1 r2⟩

theorem lexStep_le_iff (x y rc : Int) (rp : Prop) (hrest : rc ≤ 0 ↔ rp) :
    ((if x ≠ y then x - y else rc) ≤ 0) ↔ (x < y ∨ (x = y ∧ rp)) := by
  by_cases h : x = y
  · simp [h, hrest]
  · rw [if_pos h]
    constructor
    · intro hle
      exact Or.inl (by omega)
    · rintro (hlt | ⟨he, _⟩)
      · omega
      · exact absurd he h

theorem invStep_le_iff (p q : Bool) (rc : Int) (rp : Prop) (hrest : rc ≤ 0 ↔ rp) :
    ((if p ≠ q then (if p then (1 : Int) else -1) else rc) ≤ 0) ↔
      (invRank p < invRank q ∨ (invRank p = invRank q ∧ rp)) := by
  cases p <;> cases q <;> simp [invRank, hrest]

theorem cmpRule_le_iff (a b : CaslPermission) : cmpRule a b ≤ 0 ↔ cascadeSpecLe a b := by
  unfold cmpRule cascadeSpecLe lexLe
  exact lexStep_le_iff _ _ _ _
    (invStep_le_iff _ _ _ _
      (lexStep_le_iff _ _ _ _
        (lexStep_le_iff _ _ _ _ Iff.rfl)))

theorem cmpRule_neg (a b : CaslPermission) : cmpRule b a = - cmpRule a b := by
  unfold cmpRule
  by_cases h1 : sourcePriority a.source = sourcePriority b.source
  · by_cases h2 : a.inverted = b.inverted
    · by_cases h3 : getSpecificity a = getSpecificity b
      · by_cases h4 : getTimestamp a = getTimestamp b
        · simp only [h1, h2, h3, h4, ne_eq, not_true_eq_false, if_false]
          exact strCompare_neg a.id b.id
        · have h4' : getTimestamp b ≠ getTimestamp a := fun h => h4 h.symm
          simp only [h1, h2, h3, ne_eq, not_true_eq_false, if_false, h4', h4,
            not_false_eq_true, if_true]
          omega
      · have h3' : getSpecificity b ≠ getSpecificity a := fun h => h3 h.symm
        simp only [h1, h2, ne_eq, not_true_eq_false, if_false, h3', h3,
          not_false_eq_true, if_true]
        omega
    · have h2' : b.inverted ≠ a.inverted := fun h => h2 h.symm
      simp only [h1, ne_eq, not_true_eq_false, if_false, h2', h2,
        not_false_eq_true, if_true]
      cases ha : a.inverted <;> cases hb : b.inverted <;> simp_all
  · have h1' : sourcePriority b.source ≠ sourcePriority a.source := fun h => h1 h.symm
    simp only [ne_eq, h1', h1, not_false_eq_true, if_true]
    omega

theorem cmpRule_antisymm_zero {a b : CaslPermission}
    (h1 : cmpRule a b ≤ 0) (h2 : cmpRule b a ≤ 0) : cmpRule a b = 0 := by
  have := cmpRule_neg a b
  omega

theorem cascadeSpecLe_trans (a b c : CaslPermission) :
    cascadeSpecLe a b → cascadeSpecLe b c → cascadeSpecLe a c := by
  have hbase : ∀ x y z : CaslPermission,
      strCompare x.id y.id ≤ 0 → strCompare y.id z.id ≤ 0 → strCompare x.id z.id ≤ 0 :=
    fun _ _ _ hx hy => strCompare_le_trans hx hy
  have h4 : ∀ x y z : CaslPermission,
      lexLe getTimestamp (fun a b => strCompare a.id b.id ≤ 0) x y →
      lexLe getTimestamp (fun a b => strCompare a.id b.id ≤ 0) y z →
      lexLe getTimestamp (fun a b => strCompare a.id b.id ≤ 0) x z :=
    fun x y z => lexLe_trans _ _ hbase x y z
  have h3 : ∀ x y z : CaslPermission,
      lexLe getSpecificity (lexLe getTimestamp (fun a b => strCompare a.id b.id ≤ 0)) x y →
      lexLe getSpecificity (lexLe getTimestamp (fun a b => strCompare a.id b.id ≤ 0)) y z →
      lexLe getSpecificity (lexLe getTimestamp (fun a b => strCompare a.id b.id ≤ 0)) x z :=
    fun x y z => lexLe_trans _ _ h4 x y z
  have h2 : ∀ x y z : CaslPermission,
      lexLe (fun p => invRank p.inverted)
        (lexLe getSpecificity (lexLe getTimestamp (fun a b => strCompare a.id b.id ≤ 0))) x y →
      lexLe (fun p => invRank p.inverted)
        (lexLe getSpecificity (lexLe getTimestamp (fun a b => strCompare a.id b.id ≤ 0))) y z →
      lexLe (fun p => invRank p.inverted)
        (lexLe getSpecificity (lexLe getTimestamp (fun a b => strCompare a.id b.id ≤ 0))) x z :=
    fun x y z => lexLe_trans _ _ h3 x y z
  exact fun hab hbc => lexLe_trans _ _ h2 a b c hab hbc

instance : IsTotal CaslPermission ruleLe := ⟨fun a b => by
  unfold ruleLe
  have := cmpRule_neg a b
  omega⟩

instance : IsTrans CaslPermission ruleLe := ⟨fun a b c hab hbc =>
  (cmpRule_le_iff a c).mpr
    (cascadeSpecLe_trans a b c ((cmpRule_le_iff a b).mp hab) ((cmpRule_le_iff b c).mp hbc))⟩

theorem ruleLe_sorted_perm_eq :
    ∀ {l₁ l₂ : List CaslPermission}, l₁.Perm l₂ →
    List.Sorted ruleLe l₁ → List.Sorted ruleLe l₂ →
    (∀ a ∈ l₁, ∀ b ∈ l₁, cmpRule a b = 0 → a = b) → l₁ = l₂ := by
  intro l₁
  induction l₁ with
  | nil =>
    intro l₂ hp _ _ _
    exact (List.perm_nil.mp hp.symm).symm
  | cons a t ih =>
    intro l₂ hp hs₁ hs₂ hinj
    cases l₂ with
    | nil => exact absurd (List.perm_nil.mp hp) (by simp)
    | cons b t₂ =>
      have hb₁ : b ∈ a :: t := hp.symm.subset (List.mem_cons_self b t₂)
      have ha₂ : a ∈ b :: t₂ := hp.subset (List.mem_cons_self a t)
      have hab : a = b := by
        rcases List.mem_cons.mp hb₁ with hba | hbt
        · exact hba.symm
        · rcases List.mem_cons.mp ha₂ with hab2 | hat2
          · exact hab2
          · have h1 : ruleLe a b := List.rel_of_sorted_cons hs₁ b hbt
            have h2 : ruleLe b a := List.rel_of_sorted_cons hs₂ a hat2
            exact hinj a (List.mem_cons_self a t) b hb₁ (cmpRule_antisymm_zero h1 h2)
      subst hab
      have hpt : t.Perm t₂ := hp.cons_inv
      have ht : t = t₂ :=
        ih hpt (List.sorted_cons.mp hs₁).2 (List.sorted_cons.mp hs₂).2
          (fun x hx y hy hxy =>
            hinj x (List.mem_cons_of_mem a hx) y (List.mem_cons_of_mem a hy) hxy)
      rw [ht]

/-- Claim C1: `sortPermissionsByPriority` returns a permutation of its
input that is ordered by the lexicographic cascade: ascending source
rank with member_permission_set(1) < member_direct(2) <
user_permission_set(3) < user_direct(4); then allow (non-inverted)
before deny (inverted) rules; then ascending specificity (2 for
non-empty conditions plus 1 for non-empty fields); then ascending
timestamp (`updatedAt` if present else `createdAt`); then ascending
lexical comparison of id. -/
theorem sortPermissionsByPriority_cascade_order (l : List CaslPermission) :
    (sortPermissionsByPriority l).Perm l ∧
    List.Sorted cascadeSpecLe (sortPermissionsByPriority l) := by
  refine ⟨List.perm_insertionSort ruleLe l, ?_⟩
  have h := List.sorted_insertionSort ruleLe l
  exact h.imp (fun hab => (cmpRule_le_iff _ _).mp hab)

/-- Claim C2, counterexample: two distinct rules that tie on every
comparator key (same id, different name) make the sorted output depend
on the input order, because the sort is stable.  The two input lists are
permutations of each other, yet the sorted results differ. -/
theorem sortPermissionsByPriority_order_dependent_on_ties :
    ([ruleDupB, ruleDupA]).Perm [ruleDupA, ruleDupB] ∧
    sortPermissionsByPriority [ruleDupB, ruleDupA] ≠
      sortPermissionsByPriority [ruleDupA, ruleDupB] := by
  constructor
  · exact List.Perm.swap ruleDupA ruleDupB []
  · have e1 : sortPermissionsByPriority [ruleDupB, ruleDupA] = [ruleDupB, ruleDupA] := by rfl
    have e2 : sortPermissionsByPriority [ruleDupA, ruleDupB] = [ruleDupA, ruleDupB] := by rfl
    rw [e1, e2]
    intro h
    simp [ruleDupA, ruleDupB] at h

/-- Claim C2 (amended): sorting is idempotent on every rule list, and
on rule lists in which no two distinct rules tie on every comparator
key — in particular whenever rule ids are pairwise distinct — the
sorted output is a function of the rule set alone: permuting the input
does not change it. -/
theorem sortPermissionsByPriority_deterministic :
    (∀ l : List CaslPermission,
      sortPermissionsByPriority (sortPermissionsByPriority l) = sortPermissionsByPriority l) ∧
    (∀ l₁ l₂ : List CaslPermission, l₁.Perm l₂ →
      (∀ a ∈ l₁, ∀ b ∈ l₁, cmpRule a b = 0 → a = b) →
      sortPermissionsByPriority l₁ = sortPermissionsByPriority l₂) := by
  constructor
  · intro l
    exact List.Sorted.insertionSort_eq (List.sorted_insertionSort ruleLe l)
  · intro l₁ l₂ hperm hsep
    apply ruleLe_sorted_perm_eq
    · exact (List.perm_insertionSort ruleLe l₁).trans
        (hperm.trans (List.perm_insertionSort ruleLe l₂).symm)
    · exact List.sorted_insertionSort ruleLe l₁
    · exact List.sorted_insertionSort ruleLe l₂
    · intro x hx y hy hxy
      exact hsep x ((List.perm_insertionSort ruleLe l₁).subset hx)
        y ((List.perm_insertionSort ruleLe l₁).subset hy) hxy

/-- Witness for the amended determinism theorem: idempotence at a
concrete list that even contains tied rules, and order-independence at
two concrete two-element rule lists with distinct ids. -/
theorem sortPermissionsByPriority_deterministic_witness :
    sortPermissionsByPriority (sortPermissionsByPriority [ruleDupA, ruleDupB]) =
      sortPermissionsByPriority [ruleDupA, ruleDupB] ∧
    sortPermissionsByPriority [ruleW1, ruleW2] = sortPermissionsByPriority [ruleW2, ruleW1] :=
  ⟨sortPermissionsByPriority_deterministic.1 [ruleDupA, ruleDupB],
   sortPermissionsByPriority_deterministic.2 [ruleW1, ruleW2] [ruleW2, ruleW1]
    (List.Perm.swap ruleW2 ruleW1 [])
    (by
      intro x hx y hy hxy
      rcases List.mem_cons.mp hx with rfl | hx2
      · rcases List.mem_cons.mp hy with rfl | hy2
        · rfl
        · rcases List.mem_cons.mp hy2 with rfl | hy3
          · exact absurd hxy (by decide)
          · exact absurd hy3 (List.not_mem_nil y)
      · rcases List.mem_cons.mp hx2 with rfl | hx3
        · rcases List.mem_cons.mp hy with rfl | hy2
          · exact absurd hxy (by decide)
          · rcases List.mem_cons.mp hy2 with rfl | hy3
            · rfl
            · exact absurd hy3 (List.not_mem_nil y)
        · exact absurd hx3 (List.not_mem_nil x))⟩

/-- Claim C3, code bug: on a context whose second-level nested object
holds the dangerous key `constructor` next to a safe key, the sanitizer
keeps the dangerous key (its assignment creates an own property, unlike
`__proto__` which falls into the inherited accessor and is dropped),
drops the safe key, and still reports the context valid.  The inner
loop of `sanitizeNestedObject` assigns exactly the blacklisted keys
instead of stripping them — the opposite of the function's stated
sanitizing purpose. -/
theorem validateAndSanitizeContext_keeps_nested_dangerous_key :
    (validateAndSanitizeContext nestedDangerContext).sanitizedContext =
      [("a", .vobj [("b", .vobj [("constructor", .vstr "x")])])] ∧
    (validateAndSanitizeContext nestedDangerContext).isValid = true ∧
    (validateAndSanitizeContext nestedDangerContext).errors = [] :=
  ⟨rfl, rfl, rfl⟩

/-- A bad template variable produces at least one validation error. -/
theorem perVarErrors_ne_nil (v : String)
    (hbad : v ∈ disallowedTemplateVariables ∨
      strIncludes v ".." = true ∨ strIncludes v "/" = true ∨ strIncludes v "\\" = true ∨
      strIncludes v "(" = true ∨ strIncludes v ")" = true ∨
      strIncludes v "[" = true ∨ strIncludes v "]" = true) :
    perVarErrors v ≠ [] := by
  unfold perVarErrors
  rcases hbad with h | h | h | h | h | h | h | h <;> simp [h, List.append_eq_nil]

/-- When some captured template variable is bad, `validateTemplateVariables`
reports at least one error. -/
theorem validateTemplateVariables_ne_nil {s m : String} (hm : m ∈ scanVars s)
    (hbad : jsTrim m ∈ disallowedTemplateVariables ∨
      strIncludes (jsTrim m) ".." = true ∨ strIncludes (jsTrim m) "/" = true ∨
      strIncludes (jsTrim m) "\\" = true ∨ strIncludes (jsTrim m) "(" = true ∨
      strIncludes (jsTrim m) ")" = true ∨ strIncludes (jsTrim m) "[" = true ∨
      strIncludes (jsTrim m) "]" = true) :
    validateTemplateVariables s ≠ [] := by
  unfold validateTemplateVariables
  rcases List.exists_mem_of_ne_nil _ (perVarErrors_ne_nil (jsTrim m) hbad) with ⟨e, he⟩
  exact List.ne_nil_of_mem (List.mem_flatMap.mpr ⟨m, hm, he⟩)

/-- Claim C4: interpolation of a string leaf never throws (the embedding
is total, with render failures and validation failures falling back to
the original), and a string leaf one of whose captured template
variables is blacklisted (such as `process.env`) or contains `..`, `/`,
`\`, or parentheses or brackets is returned completely unchanged — no
substitution is performed. -/
theorem secureInterpolateObject_bad_variable_unchanged
    (render : String → List (String × Value) → Option String)
    (context : List (String × Value)) (s m : String)
    (hm : m ∈ scanVars s)
    (hbad : jsTrim m ∈ disallowedTemplateVariables ∨
      strIncludes (jsTrim m) ".." = true ∨ strIncludes (jsTrim m) "/" = true ∨
      strIncludes (jsTrim m) "\\" = true ∨ strIncludes (jsTrim m) "(" = true ∨
      strIncludes (jsTrim m) ")" = true ∨ strIncludes (jsTrim m) "[" = true ∨
      strIncludes (jsTrim m) "]" = true) :
    secureInterpolateObject render (.vstr s) context = .vstr s := by
  have herr : validateTemplateVariables s ≠ [] := validateTemplateVariables_ne_nil hm hbad
  have hlen : (validateTemplateVariables s).length > 0 := List.length_pos.mpr herr
  by_cases hmk : strIncludes s "\x7b\x7b" = false
  · simp [secureInterpolateObject, hmk]
  · rw [Bool.not_eq_false] at hmk
    simp [secureInterpolateObject, hmk, hlen]

/-- Witness: the `process.env` template literal passes through
interpolation unchanged even under a renderer that would substitute. -/
theorem secureInterpolateObject_bad_variable_unchanged_witness :
    secureInterpolateObject injectingRender (.vstr processEnvTemplate) [] =
      .vstr processEnvTemplate :=
  secureInterpolateObject_bad_variable_unchanged injectingRender [] processEnvTemplate
    "process.env" (by decide) (Or.inl (by decide))

/-- Claim C5: with a non-empty requested field list, the overall allowed
result is true exactly when the ability evaluator allows every field in
the list individually — AND semantics, so one denied field denies the
whole request. -/
theorem checkPermissionFieldsAllowed_and_semantics
    (canField : String → Bool) (canBase : Bool) (fs : List String) (hne : fs ≠ []) :
    (checkPermissionFieldsAllowed canField canBase (some fs) = true ↔
      ∀ f ∈ fs, canField f = true) := by
  unfold checkPermissionFieldsAllowed
  have hlen : fs.length > 0 := List.length_pos.mpr hne
  simp [hlen, List.all_eq_true]

/-- Witness: with fields title and content requested and an evaluator
denying content, the overall check is false although title alone is
allowed. -/
theorem checkPermissionFieldsAllowed_and_semantics_witness :
    (checkPermissionFieldsAllowed (fun f => f == "title") true (some ["title", "content"]) = true ↔
      ∀ f ∈ ["title", "content"], (f == "title") = true) ∧
    checkPermissionFieldsAllowed (fun f => f == "title") true (some ["title", "content"]) = false ∧
    ("title" == "title") = true :=
  ⟨checkPermissionFieldsAllowed_and_semantics (fun f => f == "title") true
      ["title", "content"] (by decide),
    rfl, rfl⟩

/-- Claim C10: `interpolateConditions` never changes any field other
than `conditions` — id, name, action, subject, fields, inverted, reason,
timestamps, expiry, organization and source are all preserved — and a
rule whose `conditions` field is absent is returned entirely
unchanged. -/
theorem interpolateConditions_frame
    (render : String → List (String × Value) → Option String)
    (rule : CaslPermission) (context : List (String × Value)) :
    (interpolateConditions render rule context).id = rule.id ∧
    (interpolateConditions render rule context).name = rule.name ∧
    (interpolateConditions render rule context).action = rule.action ∧
    (interpolateConditions render rule context).subject = rule.subject ∧
    (interpolateConditions render rule context).fields = rule.fields ∧
    (interpolateConditions render rule context).inverted = rule.inverted ∧
    (interpolateConditions render rule context).reason = rule.reason ∧
    (interpolateConditions render rule context).createdAt = rule.createdAt ∧
    (interpolateConditions render rule context).updatedAt = rule.updatedAt ∧
    (interpolateConditions render rule context).expiresAt = rule.expiresAt ∧
    (interpolateConditions render rule context).organizationId = rule.organizationId ∧
    (interpolateConditions render rule context).source = rule.source ∧
    (rule.conditions = none → interpolateConditions render rule context = rule) := by
  rcases hcond : rule.conditions with _ | entries <;>
    simp [interpolateConditions, hcond]

/-- Witness: the frame theorem applied to a concrete condition-free
rule returns it unchanged. -/
theorem interpolateConditions_frame_witness :
    interpolateConditions injectingRender ruleW3 [] = ruleW3 :=
  (interpolateConditions_frame injectingRender ruleW3 []).2.2.2.2.2.2.2.2.2.2.2.2 rfl

/-- Claim C6: a duplicate-key insert failure is absorbed into a
successful no-op, every non-duplicate store error is re-raised, and
asserting the same junction pair twice in sequence never raises and
leaves exactly one junction row. -/
theorem handleIdempotentJunctionAssignment_idempotent
    (table : List JunctionRow) (row : JunctionRow) (hfresh : row ∉ table) :
    (∀ e : DbError, isDuplicateKeyError e = true → absorbDuplicateKey (.error e) = .ok ()) ∧
    (∀ e : DbError, isDuplicateKeyError e = false → absorbDuplicateKey (.error e) = .error e) ∧
    (handleIdempotentJunctionAssignment table row).2 = .ok () ∧
    (handleIdempotentJunctionAssignment
        (handleIdempotentJunctionAssignment table row).1 row).2 = .ok () ∧
    (handleIdempotentJunctionAssignment
        (handleIdempotentJunctionAssignment table row).1 row).1.count row = 1 := by
  have h1 : (handleIdempotentJunctionAssignment table row).1 = table ++ [row] := by
    simp [handleIdempotentJunctionAssignment, junctionCreate, hfresh]
  have hmem : row ∈ table ++ [row] := by simp
  have hdup : isDuplicateKeyError duplicateKeyDbError = true := by decide
  refine ⟨?_, ?_, ?_, ?_, ?_⟩
  · intro e he
    simp [absorbDuplicateKey, he]
  · intro e he
    simp [absorbDuplicateKey, he]
  · simp [handleIdempotentJunctionAssignment, junctionCreate, hfresh, absorbDuplicateKey]
  · rw [h1]
    simp [handleIdempotentJunctionAssignment, junctionCreate, hmem, absorbDuplicateKey, hdup]
  · rw [h1]
    have h2 : (handleIdempotentJunctionAssignment (table ++ [row]) row).1 = table ++ [row] := by
      simp [handleIdempotentJunctionAssignment, junctionCreate, hmem]
    rw [h2, List.count_append]
    simp [List.count_eq_zero.mpr hfresh]

/-- Witness: asserting the pair twice against an empty junction table. -/
theorem handleIdempotentJunctionAssignment_idempotent_witness :
    (∀ e : DbError, isDuplicateKeyError e = true → absorbDuplicateKey (.error e) = .ok ()) ∧
    (∀ e : DbError, isDuplicateKeyError e = false → absorbDuplicateKey (.error e) = .error e) ∧
    (handleIdempotentJunctionAssignment [] ("set1", "user1")).2 = .ok () ∧
    (handleIdempotentJunctionAssignment
        (handleIdempotentJunctionAssignment [] ("set1", "user1")).1 ("set1", "user1")).2 = .ok () ∧
    (handleIdempotentJunctionAssignment
        (handleIdempotentJunctionAssignment [] ("set1", "user1")).1
        ("set1", "user1")).1.count ("set1", "user1") = 1 :=
  handleIdempotentJunctionAssignment_idempotent [] ("set1", "user1") (List.not_mem_nil _)

/-- No list member survives a filter that rejects exactly the members of `ids`. -/
theorem mem_filter_not_contains {α : Type} [DecidableEq α] (f : α → String)
    (l : List α) (ids : List String) :
    ∀ x ∈ l.filter (fun r => !(ids.contains (f r))), f x ∉ ids := by
  intro x hx
  have h := (List.mem_filter.mp hx).2
  simp at h
  exact h

/-- Deleting the first row matching an id from a duplicate-free table
removes the id entirely. -/
theorem not_mem_eraseP_self {l : List String} (hnd : l.Nodup) (id : String) :
    id ∉ l.eraseP (fun pid => pid == id) := by
  induction l with
  | nil => simp
  | cons a t ih =>
    rw [List.eraseP_cons]
    by_cases ha : a = id
    · subst ha
      simp only [beq_self_eq_true, cond_true]
      exact (List.nodup_cons.mp hnd).1
    · have hb : (a == id) = false := by simp [ha]
      simp only [hb, cond_false]
      intro hmem
      rcases List.mem_cons.mp hmem with h | h
      · exact ha h.symm
      · exact ih (List.nodup_cons.mp hnd).2 h

/-- Claim C7: after a batch cascade deletion no junction table contains
a row referencing any deleted id, the deleted permission rows are
absent, and the returned count is the number of permission rows actually
deleted; after a single-permission cascade deletion no junction row
references the id and the permission row is absent, with the returned
flag reporting whether the row existed. -/
theorem cascadeDeletePermissions_complete (store : AuthStore) (ids : List String)
    (id : String) (hnodup : store.permission.Nodup) :
    ((∀ r ∈ (batchDeletePermissions store ids).1.userPermission, r.1 ∉ ids) ∧
     (∀ r ∈ (batchDeletePermissions store ids).1.memberPermission, r.1 ∉ ids) ∧
     (∀ r ∈ (batchDeletePermissions store ids).1.permissionPermissionSet, r.1 ∉ ids) ∧
     (∀ pid ∈ (batchDeletePermissions store ids).1.permission, pid ∉ ids) ∧
     (batchDeletePermissions store ids).2 =
       (store.permission.filter (fun pid => ids.contains pid)).length) ∧
    ((∀ r ∈ (deletePermission store id).1.userPermission, r.1 ≠ id) ∧
     (∀ r ∈ (deletePermission store id).1.memberPermission, r.1 ≠ id) ∧
     (∀ r ∈ (deletePermission store id).1.permissionPermissionSet, r.1 ≠ id) ∧
     id ∉ (deletePermission store id).1.permission ∧
     (deletePermission store id).2 = store.permission.contains id) := by
  constructor
  · by_cases hids : ids.length = 0
    · have : ids = [] := List.length_eq_zero.mp hids
      subst this
      simp [batchDeletePermissions]
    · refine ⟨?_, ?_, ?_, ?_, ?_⟩
      · simp only [batchDeletePermissions, hids, if_false]
        exact mem_filter_not_contains Prod.fst store.userPermission ids
      · simp only [batchDeletePermissions, hids, if_false]
        exact mem_filter_not_contains Prod.fst store.memberPermission ids
      · simp only [batchDeletePermissions, hids, if_false]
        exact mem_filter_not_contains Prod.fst store.permissionPermissionSet ids
      · simp only [batchDeletePermissions, hids, if_false]
        exact mem_filter_not_contains (fun pid => pid) store.permission ids
      · simp [batchDeletePermissions, hids]
  · refine ⟨?_, ?_, ?_, ?_, ?_⟩
    · intro r hr
      have h := (List.mem_filter.mp hr).2
      simpa using h
    · intro r hr
      have h := (List.mem_filter.mp hr).2
      simpa using h
    · intro r hr
      have h := (List.mem_filter.mp hr).2
      simpa using h
    · exact not_mem_eraseP_self hnodup id
    · rfl

/-- Witness: cascade deletion applied to the concrete store, both in
batch form for the id list containing p1 and in single form for p1. -/
theorem cascadeDeletePermissions_complete_witness :
    ((∀ r ∈ (batchDeletePermissions witnessStore ["p1"]).1.userPermission, r.1 ∉ ["p1"]) ∧
     (∀ r ∈ (batchDeletePermissions witnessStore ["p1"]).1.memberPermission, r.1 ∉ ["p1"]) ∧
     (∀ r ∈ (batchDeletePermissions witnessStore ["p1"]).1.permissionPermissionSet,
        r.1 ∉ ["p1"]) ∧
     (∀ pid ∈ (batchDeletePermissions witnessStore ["p1"]).1.permission, pid ∉ ["p1"]) ∧
     (batchDeletePermissions witnessStore ["p1"]).2 =
       (witnessStore.permission.filter (fun pid => (["p1"] : List String).contains pid)).length) ∧
    ((∀ r ∈ (deletePermission witnessStore "p1").1.userPermission, r.1 ≠ "p1") ∧
     (∀ r ∈ (deletePermission witnessStore "p1").1.memberPermission, r.1 ≠ "p1") ∧
     (∀ r ∈ (deletePermission witnessStore "p1").1.permissionPermissionSet, r.1 ≠ "p1") ∧
     "p1" ∉ (deletePermission witnessStore "p1").1.permission ∧
     (deletePermission witnessStore "p1").2 = witnessStore.permission.contains "p1") :=
  cascadeDeletePermissions_complete witnessStore ["p1"] "p1" (by decide)

/-- The inner loop of `flattenGroupedRecords` computes a first-wins
deduplication pass together with the newly seen ids. -/
theorem foldl_dedup_step {T : Type} (getId : T → String) :
    ∀ (items : List T) (seen : List String) (res : List T),
    items.foldl (fun (st2 : List String × List T) item =>
        if getId item ∈ st2.1 then st2
        else (st2.1 ++ [getId item], st2.2 ++ [item])) (seen, res) =
      (seen ++ newIds getId items seen, res ++ dedupByIdAux getId items seen) := by
  intro items
  induction items with
  | nil =>
    intro seen res
    simp [newIds, dedupByIdAux]
  | cons x xs ih =>
    intro seen res
    by_cases h : getId x ∈ seen
    · simp only [List.foldl_cons, if_pos h]
      rw [ih]
      simp [newIds, dedupByIdAux, h]
    · simp only [List.foldl_cons, if_neg h]
      rw [ih]
      simp [newIds, dedupByIdAux, h, List.append_assoc, List.singleton_append]
  
/-- `newIds` distributes over list concatenation. -/
theorem newIds_append {T : Type} (getId : T → String) :
    ∀ (xs ys : List T) (seen : List String),
    newIds getId (xs ++ ys) seen =
      newIds getId xs seen ++ newIds getId ys (seen ++ newIds getId xs seen) := by
  intro xs
  induction xs with
  | nil =>
    intro ys seen
    simp [newIds]
  | cons x xs ih =>
    intro ys seen
    by_cases h : getId x ∈ seen
    · simp [newIds, h, ih]
    · simp [newIds, h, ih, List.append_assoc]

/-- `dedupByIdAux` distributes over list concatenation. -/
theorem dedupByIdAux_append {T : Type} (getId : T → String) :
    ∀ (xs ys : List T) (seen : List String),
    dedupByIdAux getId (xs ++ ys) seen =
      dedupByIdAux getId xs seen ++ dedupByIdAux getId ys (seen ++ newIds getId xs seen) := by
  intro xs
  induction xs with
  | nil =>
    intro ys seen
    simp [dedupByIdAux, newIds]
  | cons x xs ih =>
    intro ys seen
    by_cases h : getId x ∈ seen
    · simp [dedupByIdAux, newIds, h, ih]
    · simp [dedupByIdAux, newIds, h, ih, List.append_assoc]

/-- The nested loops of `flattenGroupedRecords` compute a first-wins
deduplication pass over the concatenation of the grouped arrays. -/
theorem flattenGroupedRecords_foldl {T : Type} (getId : T → String) :
    ∀ (r : List (String × List T)) (seen : List String) (res : List T),
    r.foldl (fun st kv =>
        kv.2.foldl (fun (st2 : List String × List T) item =>
          if getId item ∈ st2.1 then st2
          else (st2.1 ++ [getId item], st2.2 ++ [item])) st) (seen, res) =
      (seen ++ newIds getId (r.flatMap fun kv => kv.2) seen,
       res ++ dedupByIdAux getId (r.flatMap fun kv => kv.2) seen) := by
  intro r
  induction r with
  | nil =>
    intro seen res
    simp [newIds, dedupByIdAux]
  | cons kv rest ih =>
    intro seen res
    simp only [List.foldl_cons]
    rw [foldl_dedup_step, ih]
    rw [List.flatMap_cons, newIds_append, dedupByIdAux_append]
    simp [List.append_assoc]

/-- `flattenGroupedRecords` equals the single-pass deduplication of the
concatenated grouped arrays. -/
theorem flattenGroupedRecords_eq_dedup {T : Type} (getId : T → String)
    (r : List (String × List T)) :
    flattenGroupedRecords getId r = dedupByIdAux getId (r.flatMap fun kv => kv.2) [] := by
  unfold flattenGroupedRecords
  rw [flattenGroupedRecords_foldl]
  simp

/-- Every record kept by the deduplication pass has an id outside the
seen set. -/
theorem dedupByIdAux_not_mem_seen {T : Type} (getId : T → String) :
    ∀ (l : List T) (seen : List String) (y : T),
    y ∈ dedupByIdAux getId l seen → getId y ∉ seen := by
  intro l
  induction l with
  | nil =>
    intro seen y h
    simp [dedupByIdAux] at h
  | cons x xs ih =>
    intro seen y h
    by_cases hc : getId x ∈ seen
    · simp only [dedupByIdAux, if_pos hc] at h
      exact ih seen y h
    · simp only [dedupByIdAux, if_neg hc] at h
      rcases List.mem_cons.mp h with rfl | h2
      · exact hc
      · have := ih (seen ++ [getId x]) y h2
        intro hmem
        exact this (List.mem_append.mpr (Or.inl hmem))

/-- The ids of the deduplicated output are pairwise distinct. -/
theorem dedupByIdAux_ids_nodup {T : Type} (getId : T → String) :
    ∀ (l : List T) (seen : List String), ((dedupByIdAux getId l seen).map getId).Nodup := by
  intro l
  induction l with
  | nil =>
    intro seen
    simp [dedupByIdAux]
  | cons x xs ih =>
    intro seen
    by_cases hc : getId x ∈ seen
    · simp only [dedupByIdAux, if_pos hc]
      exact ih seen
    · simp only [dedupByIdAux, if_neg hc, List.map_cons]
      rw [List.nodup_cons]
      constructor
      · intro hmem
        rcases List.mem_map.mp hmem with ⟨y, hy, hgy⟩
        exact dedupByIdAux_not_mem_seen getId xs (seen ++ [getId x]) y hy
          (List.mem_append.mpr (Or.inr (List.mem_singleton.mpr hgy)))
      · exact ih (seen ++ [getId x])

/-- The deduplicated output is a sublist of the input, so input order is
preserved. -/
theorem dedupByIdAux_sublist {T : Type} (getId : T → String) :
    ∀ (l : List T) (seen : List String), (dedupByIdAux getId l seen).Sublist l := by
  intro l
  induction l with
  | nil =>
    intro seen
    simp [dedupByIdAux]
  | cons x xs ih =>
    intro seen
    by_cases hc : getId x ∈ seen
    · simp only [dedupByIdAux, if_pos hc]
      exact List.Sublist.cons x (ih seen)
    · simp only [dedupByIdAux, if_neg hc]
      exact List.Sublist.cons₂ x (ih (seen ++ [getId x]))

/-- Every input id is either already seen or represented in the
deduplicated output. -/
theorem dedupByIdAux_covers {T : Type} (getId : T → String) :
    ∀ (l : List T) (seen : List String) (t : T), t ∈ l →
      getId t ∈ seen ∨ ∃ u ∈ dedupByIdAux getId l seen, getId u = getId t := by
  intro l
  induction l with
  | nil =>
    intro seen t ht
    simp at ht
  | cons x xs ih =>
    intro seen t ht
    by_cases hc : getId x ∈ seen
    · simp only [dedupByIdAux, if_pos hc]
      rcases List.mem_cons.mp ht with rfl | ht2
      · exact Or.inl hc
      · exact ih seen t ht2
    · simp only [dedupByIdAux, if_neg hc]
      rcases List.mem_cons.mp ht with rfl | ht2
      · exact Or.inr ⟨t, List.mem_cons_self t _, rfl⟩
      · rcases ih (seen ++ [getId x]) t ht2 with h | ⟨u, hu, hgu⟩
        · rcases List.mem_append.mp h with h1 | h1
          · exact Or.inl h1
          · exact Or.inr ⟨x, List.mem_cons_self x _, (List.mem_singleton.mp h1).symm⟩
        · exact Or.inr ⟨u, List.mem_cons_of_mem x hu, hgu⟩

/-- Every record kept by the deduplication pass is the first occurrence
of its id in the input list. -/
theorem dedupByIdAux_first_occurrence {T : Type} (getId : T → String) :
    ∀ (l : List T) (seen : List String) (u : T), u ∈ dedupByIdAux getId l seen →
      ∃ pre post, l = pre ++ u :: post ∧ ∀ v ∈ pre, getId v ≠ getId u := by
  intro l
  induction l with
  | nil =>
    intro seen u h
    simp [dedupByIdAux] at h
  | cons x xs ih =>
    intro seen u h
    by_cases hc : getId x ∈ seen
    · simp only [dedupByIdAux, if_pos hc] at h
      rcases ih seen u h with ⟨pre, post, heq, hpre⟩
      refine ⟨x :: pre, post, by rw [heq, List.cons_append], ?_⟩
      intro v hv
      rcases List.mem_cons.mp hv with rfl | hv2
      · intro hgeq
        exact dedupByIdAux_not_mem_seen getId xs seen u h (hgeq ▸ hc)
      · exact hpre v hv2
    · simp only [dedupByIdAux, if_neg hc] at h
      rcases List.mem_cons.mp h with rfl | h2
      · exact ⟨[], xs, rfl, by simp⟩
      · rcases ih (seen ++ [getId x]) u h2 with ⟨pre, post, heq, hpre⟩
        refine ⟨x :: pre, post, by rw [heq, List.cons_append], ?_⟩
        intro v hv
        rcases List.mem_cons.mp hv with rfl | hv2
        · intro hgeq
          exact dedupByIdAux_not_mem_seen getId xs (seen ++ [getId v]) u h2
            (List.mem_append.mpr (Or.inr (List.mem_singleton.mpr hgeq.symm)))
        · exact hpre v hv2

/-- Claim C8: flattening a grouped record map deduplicates by id with
the first occurrence winning: the output ids are pairwise distinct, the
output is a sublist (in iteration order) of the concatenated groups,
every input id is represented, and each kept entry is the first
occurrence of its id in iteration order. -/
theorem flattenGroupedRecords_first_occurrence_dedup {T : Type} (getId : T → String)
    (r : List (String × List T)) :
    ((flattenGroupedRecords getId r).map getId).Nodup ∧
    (flattenGroupedRecords getId r).Sublist (r.flatMap fun kv => kv.2) ∧
    (∀ t ∈ r.flatMap (fun kv => kv.2),
      ∃ u ∈ flattenGroupedRecords getId r, getId u = getId t) ∧
    (∀ u ∈ flattenGroupedRecords getId r,
      ∃ pre post, r.flatMap (fun kv => kv.2) = pre ++ u :: post ∧
        ∀ v ∈ pre, getId v ≠ getId u) := by
  rw [flattenGroupedRecords_eq_dedup]
  refine ⟨dedupByIdAux_ids_nodup getId _ [], dedupByIdAux_sublist getId _ [], ?_, ?_⟩
  · intro t ht
    rcases dedupByIdAux_covers getId _ [] t ht with h | h
    · simp at h
    · exact h
  · intro u hu
    exact dedupByIdAux_first_occurrence getId _ [] u hu

/-- Witness: flattening a concrete two-set record map in which the
permission with id x is linked into both sets. -/
theorem flattenGroupedRecords_first_occurrence_dedup_witness :
    ((flattenGroupedRecords Prod.fst witnessGroups).map Prod.fst).Nodup ∧
    (flattenGroupedRecords Prod.fst witnessGroups).Sublist
      (witnessGroups.flatMap fun kv => kv.2) ∧
    (∀ t ∈ witnessGroups.flatMap (fun kv => kv.2),
      ∃ u ∈ flattenGroupedRecords Prod.fst witnessGroups, u.1 = t.1) ∧
    (∀ u ∈ flattenGroupedRecords Prod.fst witnessGroups,
      ∃ pre post, witnessGroups.flatMap (fun kv => kv.2) = pre ++ u :: post ∧
        ∀ v ∈ pre, v.1 ≠ u.1) :=
  flattenGroupedRecords_first_occurrence_dedup Prod.fst witnessGroups

/-- Chunking produces no chunks exactly on the empty list. -/
theorem chunksOfPos_eq_nil_iff {T : Type} (m : Nat) (l : List T) :
    chunksOfPos m l = [] ↔ l = [] := by
  cases l with
  | nil => simp [chunksOfPos]
  | cons x xs => simp [chunksOfPos]

/-- Concatenating the chunks restores the original list. -/
theorem chunksOfPos_flatten {T : Type} (m : Nat) :
    ∀ (n : Nat) (l : List T), l.length ≤ n → (chunksOfPos m l).flatten = l := by
  intro n
  induction n with
  | zero =>
    intro l h
    have hl : l = [] := List.eq_nil_of_length_eq_zero (Nat.le_zero.mp h)
    subst hl
    simp [chunksOfPos]
  | succ n ih =>
    intro l h
    cases l with
    | nil => simp [chunksOfPos]
    | cons x xs =>
      rw [chunksOfPos, List.flatten_cons]
      rw [ih ((x :: xs).drop (m + 1)) (by simp [List.length_drop] at h ⊢; omega)]
      exact List.take_append_drop (m + 1) (x :: xs)

/-- Every chunk is non-empty and no longer than the chunk size. -/
theorem chunksOfPos_chunk_bounds {T : Type} (m : Nat) :
    ∀ (n : Nat) (l : List T), l.length ≤ n →
      ∀ c ∈ chunksOfPos m l, c ≠ [] ∧ c.length ≤ m + 1 := by
  intro n
  induction n with
  | zero =>
    intro l h
    have hl : l = [] := List.eq_nil_of_length_eq_zero (Nat.le_zero.mp h)
    subst hl
    simp [chunksOfPos]
  | succ n ih =>
    intro l h
    cases l with
    | nil => simp [chunksOfPos]
    | cons x xs =>
      rw [chunksOfPos]
      intro c hc
      rcases List.mem_cons.mp hc with rfl | hc2
      · constructor
        · rw [List.take_succ_cons]
          exact List.cons_ne_nil x _
        · rw [List.length_take]
          omega
      · exact ih ((x :: xs).drop (m + 1)) (by simp at h ⊢; omega) c hc2

/-- Every chunk except possibly the last has exactly the chunk size. -/
theorem chunksOfPos_dropLast_full {T : Type} (m : Nat) :
    ∀ (n : Nat) (l : List T), l.length ≤ n →
      ∀ c ∈ (chunksOfPos m l).dropLast, c.length = m + 1 := by
  intro n
  induction n with
  | zero =>
    intro l h
    have hl : l = [] := List.eq_nil_of_length_eq_zero (Nat.le_zero.mp h)
    subst hl
    simp [chunksOfPos]
  | succ n ih =>
    intro l h
    cases l with
    | nil => simp [chunksOfPos]
    | cons x xs =>
      rw [chunksOfPos]
      cases hrest : chunksOfPos m ((x :: xs).drop (m + 1)) with
      | nil => simp
      | cons y ys =>
        rw [List.dropLast_cons₂]
        intro c hc
        rcases List.mem_cons.mp hc with rfl | hc2
        · have hdrop : (x :: xs).drop (m + 1) ≠ [] := by
            intro hnil
            rw [(chunksOfPos_eq_nil_iff m _).mpr hnil] at hrest
            exact List.noConfusion hrest
          have hgt : ¬ ((x :: xs).length ≤ m + 1) :=
            fun hle => hdrop (List.drop_eq_nil_iff.mpr hle)
          rw [List.length_take]
          simp at hgt ⊢
          omega
        · have hlen : ((x :: xs).drop (m + 1)).length ≤ n := by
            simp at h ⊢
            omega
          exact ih ((x :: xs).drop (m + 1)) hlen c (by rw [hrest]; exact hc2)

/-- Claim C9: for the empty array `chunkArray` returns no chunks for any
chunk size without raising; for a non-empty array a non-positive chunk
size raises an error; and for a positive chunk size the chunks
concatenate back to the array, every chunk is non-empty with length at
most the chunk size, and every chunk except possibly the last has
exactly the chunk size. -/
theorem chunkArray_spec {T : Type} (a : List T) (k : Int) :
    (a = [] → ∀ k2 : Int, chunkArray a k2 = .ok []) ∧
    (a ≠ [] → k ≤ 0 → chunkArray a k = .error "Chunk size must be greater than 0") ∧
    (0 < k → ∃ cs, chunkArray a k = .ok cs ∧ cs.flatten = a ∧
      (∀ c ∈ cs, c ≠ [] ∧ c.length ≤ k.toNat) ∧
      (∀ c ∈ cs.dropLast, c.length = k.toNat)) := by
  refine ⟨?_, ?_, ?_⟩
  · intro ha k2
    subst ha
    simp [chunkArray]
  · intro ha hk
    have hlen : ¬ (a.length = 0) := fun h => ha (List.length_eq_zero.mp h)
    simp [chunkArray, hlen, hk]
  · intro hk
    have hm : k.toNat - 1 + 1 = k.toNat := by omega
    by_cases ha : a.length = 0
    · have ha2 : a = [] := List.length_eq_zero.mp ha
      subst ha2
      exact ⟨[], by simp [chunkArray], by simp, by simp, by simp⟩
    · have hk2 : ¬ (k ≤ 0) := by omega
      refine ⟨chunksOfPos (k.toNat - 1) a, by simp [chunkArray, ha, hk2], ?_, ?_, ?_⟩
      · exact chunksOfPos_flatten (k.toNat - 1) a.length a le_rfl
      · intro c hc
        have hb := chunksOfPos_chunk_bounds (k.toNat - 1) a.length a le_rfl c hc
        rw [hm] at hb
        exact hb
      · intro c hc
        have hb := chunksOfPos_dropLast_full (k.toNat - 1) a.length a le_rfl c hc
        rw [hm] at hb
        exact hb

/-- Witness: chunking a three-element list with chunk size two. -/
theorem chunkArray_spec_witness :
    ∃ cs, chunkArray [1, 2, 3] (2 : Int) = .ok cs ∧ cs.flatten = [1, 2, 3] ∧
      (∀ c ∈ cs, c ≠ [] ∧ c.length ≤ (2 : Int).toNat) ∧
      (∀ c ∈ cs.dropLast, c.length = (2 : Int).toNat) :=
  (chunkArray_spec [1, 2, 3] 2).2.2 (by decide)
